import Mathlib

/-!
Verification of the dense-matrix / multilayer-perceptron core of the
`cpp-neural-network` repository.

The development shallowly embeds the two source components:

* `matrix.hpp`   — class `Matrix`: a rows × cols store of doubles with
  bounds-checked access, elementwise arithmetic, the naive triple-loop
  product, transpose, scalar product, reduction, and the in-place
  transforms `randomize`, `sigmoid`, `square`.
* `neural-network.hpp` — class `NeuralNetwork`: weight/bias stacks sized
  from a layer-size sequence, `forward`, `train` (one SGD step by
  backpropagation) and `mse`.

Modelling conventions:
* `double` is modelled as `ℝ`; `std::exp` as `Real.exp`.
* C++ exceptions are modelled with `Except MErr`: `std::invalid_argument`
  on dimension mismatch as `MErr.dimMismatch`, `std::out_of_range` from
  `Matrix::at` as `MErr.indexOutOfRange`.  An out-of-bounds
  `std::vector::operator[]` access is undefined behaviour in C++; the
  embedding reports it as the distinguished outcome `MErr.ubOutOfBounds`.
* `size_t` arithmetic that can wrap (the `weights.size() - 1` in
  `NeuralNetwork::train`) is modelled explicitly modulo `2 ^ 64`.
* the in-place transforms (`sigmoid`, `square`, `randomize`) are modelled
  as pure functions returning the new value, as the specification's
  design notes explicitly allow.
* `rand()/RAND_MAX` draws are abstracted into explicit oracle arguments
  supplying one value per cell, so construction is a deterministic
  function of the oracles.
-/

namespace NNSpec

/-- Error taxonomy of the embedded program: `dimMismatch` models
`std::invalid_argument` thrown by the binary matrix operators,
`indexOutOfRange` models `std::out_of_range` thrown by `Matrix::at`, and
`ubOutOfBounds` marks an out-of-bounds unchecked `std::vector` element
access, which is undefined behaviour in the source. -/
inductive MErr where
  | dimMismatch
  | indexOutOfRange
  | ubOutOfBounds
deriving DecidableEq

/-- Embedding of class `Matrix`: row count, column count, and the
`std::vector<std::vector<double>>` payload. -/
structure Matrix where
  rows : Nat
  cols : Nat
  data : List (List ℝ)

/-- Default matrix used as the `getD` fallback for `std::vector<Matrix>`
element reads; every read the program performs is separately shown (or
required) to be in bounds. -/
def dfltM : Matrix := ⟨0, 0, []⟩

/-- Raw cell read `data[i][j]`.  Inside the matrix operators every such
read is guarded by the dimension checks, so on the executed paths it
coincides with the bounds-checked `Matrix::at`. -/
def Matrix.entry (m : Matrix) (i j : Nat) : ℝ :=
  (m.data.getD i []).getD j 0

/-- Builds the `rows × cols` store produced by allocating a matrix of the
given shape and filling cell `(i, j)` with `f i j`, the shape every
`Matrix`-returning operator of the source has. -/
def Matrix.ofFn (r c : Nat) (f : Nat → Nat → ℝ) : Matrix :=
  ⟨r, c, (List.range r).map (fun i => (List.range c).map (fun j => f i j))⟩

/-- Constructor `Matrix(r, c, initVal)`: all cells hold the fill value. -/
def Matrix.mkFill (r c : Nat) (v : ℝ) : Matrix :=
  Matrix.ofFn r c (fun _ _ => v)

/-- Bounds-checked element access `Matrix::at(i, j)`. -/
def Matrix.atE (m : Matrix) (i j : Nat) : Except MErr ℝ :=
  if i ≥ m.rows ∨ j ≥ m.cols then .error .indexOutOfRange
  else .ok (m.entry i j)

/-- Value computed by `operator+` once the dimension check has passed. -/
def Matrix.addP (a b : Matrix) : Matrix :=
  Matrix.ofFn a.rows a.cols (fun i j => a.entry i j + b.entry i j)

/-- Matrix addition `operator+`: dimension check, then the elementwise
sum. -/
def Matrix.add (a b : Matrix) : Except MErr Matrix :=
  if a.rows ≠ b.rows ∨ a.cols ≠ b.cols then .error .dimMismatch
  else .ok (a.addP b)

/-- Value computed by `operator-` once the dimension check has passed. -/
def Matrix.subP (a b : Matrix) : Matrix :=
  Matrix.ofFn a.rows a.cols (fun i j => a.entry i j - b.entry i j)

/-- Matrix subtraction `operator-`: dimension check, then the elementwise
difference. -/
def Matrix.sub (a b : Matrix) : Except MErr Matrix :=
  if a.rows ≠ b.rows ∨ a.cols ≠ b.cols then .error .dimMismatch
  else .ok (a.subP b)

/-- Inner accumulation of `operator*`: the `k` loop
`result(i, j) += this->at(i, k) * rhs.at(k, j)` starting from the zero
initialisation of `result`. -/
def Matrix.dotP (a b : Matrix) (i j : Nat) : ℝ :=
  (List.range a.cols).foldl (fun acc k => acc + a.entry i k * b.entry k j) 0

/-- Value computed by `operator*` (matrix × matrix) once the dimension
check has passed: the triple-nested accumulation. -/
def Matrix.mulP (a b : Matrix) : Matrix :=
  Matrix.ofFn a.rows b.cols (fun i j => a.dotP b i j)

/-- Matrix multiplication `operator*`: fails unless
`cols == rhs.rows`, otherwise the naive triple-loop product. -/
def Matrix.mul (a b : Matrix) : Except MErr Matrix :=
  if a.cols ≠ b.rows then .error .dimMismatch
  else .ok (a.mulP b)

/-- Scalar multiplication `operator*(double)`; the friend
`scalar * matrix` delegates to the same computation. -/
def Matrix.smul (a : Matrix) (s : ℝ) : Matrix :=
  Matrix.ofFn a.rows a.cols (fun i j => a.entry i j * s)

/-- Transpose: a `cols × rows` matrix with cell `(j, i)` holding
`at(i, j)`.  The source performs no dimension check here. -/
def Matrix.transpose (a : Matrix) : Matrix :=
  Matrix.ofFn a.cols a.rows (fun i j => a.entry j i)

/-- Sum of all cells, accumulated row-major exactly as the double loop of
`Matrix::sum`. -/
def Matrix.sum (a : Matrix) : ℝ :=
  (List.range a.rows).foldl
    (fun acc i => (List.range a.cols).foldl (fun acc2 j => acc2 + a.entry i j) acc) 0

/-- In-place `Matrix::randomize(min, max)` with the ambient `rand()`
stream abstracted into the oracle `rnd`, whose value at `(i, j)` stands
for that cell's draw of `rand() / RAND_MAX`.  Cell `(i, j)` becomes
`min + rnd i j * (max - min)`.  The `assert(max > min)` holds at the only
call sites (`randomize(-1.0, 1.0)`). -/
def Matrix.randomize (a : Matrix) (lo hi : ℝ) (rnd : Nat → Nat → ℝ) : Matrix :=
  Matrix.ofFn a.rows a.cols (fun i j => lo + rnd i j * (hi - lo))

/-- Scalar logistic function `1 / (1 + std::exp(-x))`. -/
noncomputable def sigmoidFn (x : ℝ) : ℝ := 1 / (1 + Real.exp (-x))

/-- In-place `Matrix::sigmoid()`: every cell `x` becomes
`1 / (1 + exp(-x))`. -/
noncomputable def Matrix.sigmoid (a : Matrix) : Matrix :=
  Matrix.ofFn a.rows a.cols (fun i j => sigmoidFn (a.entry i j))

/-- In-place `Matrix::square()`: every cell `x` becomes `x * x`. -/
def Matrix.square (a : Matrix) : Matrix :=
  Matrix.ofFn a.rows a.cols (fun i j => a.entry i j * a.entry i j)

/-- Value of the elementwise product loop of `NeuralNetwork::train`
(`error(j, k) *= derivative(j, k)`) once every access is in bounds. -/
def hadP (e d : Matrix) : Matrix :=
  Matrix.ofFn e.rows e.cols (fun i j => e.entry i j * d.entry i j)

/-- Elementwise product loop of `NeuralNetwork::train`.  It iterates over
the cells of `error` and reads `derivative(j, k)` through the
bounds-checked `operator()`, so it throws `std::out_of_range` exactly
when some visited index is outside `derivative`. -/
def hadChecked (e d : Matrix) : Except MErr Matrix :=
  if e.rows = 0 ∨ e.cols = 0 ∨ (e.rows ≤ d.rows ∧ e.cols ≤ d.cols) then .ok (hadP e d)
  else .error .indexOutOfRange

/-- Unchecked `std::vector::operator[]` on a vector of matrices: an
out-of-bounds index is undefined behaviour, reported as
`MErr.ubOutOfBounds`. -/
def vecAt (l : List Matrix) (i : Nat) : Except MErr Matrix :=
  if i < l.length then .ok (l.getD i dfltM) else .error .ubOutOfBounds

/-- Embedding of class `NeuralNetwork`: the weight stack, the bias
stack, the layer-size sequence and the learning rate. -/
structure NeuralNetwork where
  weights : List Matrix
  biases : List Matrix
  layers : List Nat
  learning_rate : ℝ

/-- Constructor `NeuralNetwork(layer_sizes, lr)`.  For every adjacent
layer pair it allocates a `(layers[i+1] × layers[i])` weight and a
`(layers[i+1] × 1)` bias, each randomised into `(-1, 1)`; the oracles
`rW i` / `rB i` supply the `rand() / RAND_MAX` draws of connection `i`.
The `size_t` loop bound `layers.size() - 1` is written with natural
subtraction, which agrees with the source for every nonempty
`layer_sizes` (all uses below). -/
def mkNetwork (layer_sizes : List Nat) (lr : ℝ)
    (rW rB : Nat → Nat → Nat → ℝ) : NeuralNetwork :=
  { weights := (List.range (layer_sizes.length - 1)).map
      (fun i => (Matrix.mkFill (layer_sizes.getD (i + 1) 0) (layer_sizes.getD i 0) 0).randomize
        (-1) 1 (rW i)),
    biases := (List.range (layer_sizes.length - 1)).map
      (fun i => (Matrix.mkFill (layer_sizes.getD (i + 1) 0) 1 0).randomize (-1) 1 (rB i)),
    layers := layer_sizes,
    learning_rate := lr }

/-- Loop of `NeuralNetwork::forward`: at index `i` it computes
`weights[i] * activation + biases[i]` and applies the sigmoid except on
the last layer.  `fuel` counts the remaining iterations, so the loop
guard `i < weights.size()` corresponds to `fuel > 0` at the call below. -/
noncomputable def forwardAux (nn : NeuralNetwork) : Nat → Nat → Matrix → Except MErr Matrix
  | _, 0, activation => .ok activation
  | i, fuel + 1, activation => do
    let w ← vecAt nn.weights i
    let b ← vecAt nn.biases i
    let wa ← w.mul activation
    let z ← wa.add b
    let a2 := if i < nn.weights.length - 1 then z.sigmoid else z
    forwardAux nn (i + 1) fuel a2

/-- `NeuralNetwork::forward(input)`.  The body reads the weight and bias
stacks but assigns to no member, so the embedding returns the final
activation together with the (unchanged) object state. -/
noncomputable def NeuralNetwork.forward (nn : NeuralNetwork) (input : Matrix) :
    Except MErr (Matrix × NeuralNetwork) :=
  (forwardAux nn 0 nn.weights.length input).map (fun a => (a, nn))

/-- Output-layer index `weights.size() - 1` computed in `size_t`
arithmetic: on an empty weight stack it wraps around to `2 ^ 64 - 1`. -/
def outputLayerIdx (n : Nat) : Nat := (n + (2 ^ 64 - 1)) % 2 ^ 64

/-- Forward pass of `NeuralNetwork::train`: identical layer recurrence to
`forward`, additionally pushing each pre-activation into `z_values` and
each post-activation into `activations`. -/
noncomputable def trainFwdAux (nn : NeuralNetwork) :
    Nat → Nat → Matrix → List Matrix → List Matrix →
    Except MErr (List Matrix × List Matrix × Matrix)
  | _, 0, activation, acts, zs => .ok (acts, zs, activation)
  | i, fuel + 1, activation, acts, zs => do
    let w ← vecAt nn.weights i
    let b ← vecAt nn.biases i
    let wa ← w.mul activation
    let z ← wa.add b
    let a2 := if i < nn.weights.length - 1 then z.sigmoid else z
    trainFwdAux nn (i + 1) fuel a2 (acts ++ [a2]) (zs ++ [z])

/-- Hidden-layer loop of `NeuralNetwork::train`
(`for (int i = output_layer - 1; i >= 0; i--)`), acting on the current
(already partially updated) weight and bias stacks.  The counter is the
number of remaining iterations, so a call with counter `c` runs the body
for `i = c - 1, ..., 0` — in particular zero iterations when the loop
start `output_layer - 1` is negative.  Each iteration reads
`weights[i+1]` from the stack as updated by the preceding iterations,
propagates the error through its transpose, rescales by
`ones - activations[i+1]²`, and overwrites `weights[i]` / `biases[i]`
with their gradient-descent update. -/
noncomputable def trainBackAux (lr : ℝ) (acts : List Matrix) :
    Nat → List Matrix → List Matrix → Matrix →
    Except MErr (List Matrix × List Matrix)
  | 0, ws, bs, _ => .ok (ws, bs)
  | i + 1, ws, bs, err => do
    let wNext ← vecAt ws (i + 1)
    let e1 ← wNext.transpose.mul err
    let aNext ← vecAt acts (i + 1)
    let sd := aNext.square
    let ones := Matrix.mkFill sd.rows sd.cols 1
    let deriv ← ones.sub sd
    let e2 ← hadChecked e1 deriv
    let aI ← vecAt acts i
    let prod ← e2.mul aI.transpose
    let wI ← vecAt ws i
    let wI2 ← wI.sub (prod.smul lr)
    let bI ← vecAt bs i
    let bI2 ← bI.sub (e2.smul lr)
    trainBackAux lr acts i (ws.set i wI2) (bs.set i bI2) e2

/-- `NeuralNetwork::train(input, target)`: cached forward pass, output
error `activations.back() - target`, output-layer update at index
`weights.size() - 1` (computed in `size_t`), then the hidden-layer loop.
On an exception the embedding returns only the error; no claim below
observes the partially updated object the C++ exception path leaves
behind. -/
noncomputable def NeuralNetwork.train (nn : NeuralNetwork) (input target : Matrix) :
    Except MErr NeuralNetwork := do
  let r ← trainFwdAux nn 0 nn.weights.length input [input] []
  let acts := r.1
  let err ← (acts.getLastD dfltM).sub target
  let oL := outputLayerIdx nn.weights.length
  let wOut ← vecAt nn.weights oL
  let aOut ← vecAt acts oL
  let prod ← err.mul aOut.transpose
  let wOut2 ← wOut.sub (prod.smul nn.learning_rate)
  let ws1 := nn.weights.set oL wOut2
  let bOut ← vecAt nn.biases oL
  let bOut2 ← bOut.sub (err.smul nn.learning_rate)
  let bs1 := nn.biases.set oL bOut2
  let r2 ← trainBackAux nn.learning_rate acts oL ws1 bs1 err
  .ok { nn with weights := r2.1, biases := r2.2 }

/-- `NeuralNetwork::mse(predicted, target)`: squared difference summed
and divided — without any guard — by the cell count
`rows * cols` (a `size_t` product converted to `double`). -/
noncomputable def NeuralNetwork.mse (predicted target : Matrix) : Except MErr ℝ := do
  let diff ← predicted.sub target
  let sq := diff.square
  .ok (sq.sum / ((sq.rows * sq.cols : Nat) : ℝ))

/-- Activation sequence cached by the forward pass of `train` (and
recomputed by `forward`): `aSeq 0` is the input and `aSeq (i + 1)` is
`weights[i] * aSeq i + biases[i]`, passed through the sigmoid on every
layer except the last. -/
noncomputable def aSeq (nn : NeuralNetwork) (input : Matrix) : Nat → Matrix
  | 0 => input
  | i + 1 =>
    let z := ((nn.weights.getD i dfltM).mulP (aSeq nn input i)).addP (nn.biases.getD i dfltM)
    if i < nn.weights.length - 1 then z.sigmoid else z

/-- Activation-derivative factor the backward pass builds for a cached
post-activation `a`: the all-ones matrix minus `a.square`, i.e. the
elementwise `1 - a²` of the source (not the textbook `a · (1 - a)`). -/
def derivOf (a : Matrix) : Matrix :=
  (Matrix.mkFill a.rows a.cols 1).subP a.square

/-- Backpropagated error terms as the executed backward pass produces
them, indexed by distance `d` from the output layer: `eAux 0` is the
output error `aSeq n - target`, and each deeper term is propagated
through the transpose of the **already updated** weight
`weights[i+1] - lr · (e_{i+1} · a_{i+1}ᵗ)` — the value the preceding
iteration (or the output-layer step) has just written back — and then
rescaled by `1 - a_{i+1}²`. -/
noncomputable def eAux (nn : NeuralNetwork) (input target : Matrix) : Nat → Matrix
  | 0 => (aSeq nn input nn.weights.length).subP target
  | d + 1 =>
    let i := nn.weights.length - 1 - (d + 1)
    let eNext := eAux nn input target d
    let aN := aSeq nn input (i + 1)
    let wUpd := (nn.weights.getD (i + 1) dfltM).subP
      ((eNext.mulP aN.transpose).smul nn.learning_rate)
    hadP (wUpd.transpose.mulP eNext) (derivOf aN)

/-- Error term of layer `i` (for `i ≤ weights.length - 1`), re-indexed
from `eAux`. -/
noncomputable def eAt (nn : NeuralNetwork) (input target : Matrix) (i : Nat) : Matrix :=
  eAux nn input target (nn.weights.length - 1 - i)

/-- Final value of `weights[i]` after one `train` call:
`weights[i] - lr · (e_i · a_iᵗ)`. -/
noncomputable def updW (nn : NeuralNetwork) (input target : Matrix) (i : Nat) : Matrix :=
  (nn.weights.getD i dfltM).subP
    (((eAt nn input target i).mulP (aSeq nn input i).transpose).smul nn.learning_rate)

/-- Final value of `biases[i]` after one `train` call:
`biases[i] - lr · e_i`. -/
noncomputable def updB (nn : NeuralNetwork) (input target : Matrix) (i : Nat) : Matrix :=
  (nn.biases.getD i dfltM).subP ((eAt nn input target i).smul nn.learning_rate)

/-- Backpropagated error terms as claim C1 describes them: identical
recurrence to `eAux`, except that each term is propagated through the
transpose of the **original** `weights[i+1]` as it was at the start of
the `train` call.  This is the claim's reading, kept for comparison with
the executed `eAux`. -/
noncomputable def eAuxOrig (nn : NeuralNetwork) (input target : Matrix) : Nat → Matrix
  | 0 => (aSeq nn input nn.weights.length).subP target
  | d + 1 =>
    let i := nn.weights.length - 1 - (d + 1)
    let eNext := eAuxOrig nn input target d
    let aN := aSeq nn input (i + 1)
    hadP ((nn.weights.getD (i + 1) dfltM).transpose.mulP eNext) (derivOf aN)

/-- Error term of layer `i` under claim C1's original-weight reading. -/
noncomputable def eAtOrig (nn : NeuralNetwork) (input target : Matrix) (i : Nat) : Matrix :=
  eAuxOrig nn input target (nn.weights.length - 1 - i)

/-- Structural invariant of a layered network over the layer-size
sequence `ls`: weight count and bias count are `ls.length - 1`,
`weights[i]` is `(ls[i+1] × ls[i])` and `biases[i]` is `(ls[i+1] × 1)`. -/
def ShapeOK (ls : List Nat) (nn : NeuralNetwork) : Prop :=
  nn.layers = ls ∧
  nn.weights.length = ls.length - 1 ∧
  nn.biases.length = ls.length - 1 ∧
  ∀ i, i < ls.length - 1 →
    (nn.weights.getD i dfltM).rows = ls.getD (i + 1) 0 ∧
    (nn.weights.getD i dfltM).cols = ls.getD i 0 ∧
    (nn.biases.getD i dfltM).rows = ls.getD (i + 1) 0 ∧
    (nn.biases.getD i dfltM).cols = 1

/-- Network states reachable from construction over `ls` by any sequence
of `forward` calls and shape-valid `train` calls. -/
inductive Reachable (ls : List Nat) : NeuralNetwork → Prop
  | init (lr : ℝ) (rW rB : Nat → Nat → Nat → ℝ) : Reachable ls (mkNetwork ls lr rW rB)
  | fwd (nn : NeuralNetwork) (input out : Matrix) (nn2 : NeuralNetwork) :
      Reachable ls nn → nn.forward input = .ok (out, nn2) → Reachable ls nn2
  | trn (nn : NeuralNetwork) (input target : Matrix) (nn2 : NeuralNetwork) :
      Reachable ls nn →
      input.rows = ls.getD 0 0 → input.cols = 1 →
      target.rows = ls.getD (ls.length - 1) 0 → target.cols = 1 →
      nn.train input target = .ok nn2 → Reachable ls nn2

/-- Oracle whose every draw is `1/2`, turning each `randomize (-1) 1`
cell into `0`. -/
noncomputable def rHalf : Nat → Nat → Nat → ℝ := fun _ _ _ => 1 / 2

/-- Oracle drawing `1/2` for connection `0` (cells become `0`) and `1`
for the later connections (cells become `1`). -/
noncomputable def rBC : Nat → Nat → Nat → ℝ := fun l _ _ => if l = 0 then 1 / 2 else 1

/-- Concrete `[1, 1, 1]` network with learning rate `1`: both weights
`[[0]]`, bias 0 `[[0]]`, bias 1 `[[1]]`. -/
noncomputable def cNet : NeuralNetwork := mkNetwork [1, 1, 1] 1 rHalf rBC

/-- Concrete `1 × 1` zero input. -/
def cIn : Matrix := ⟨1, 1, [[0]]⟩

/-- Concrete `1 × 1` zero target. -/
def cTg : Matrix := ⟨1, 1, [[0]]⟩

end NNSpec

namespace NNSpec

/-! ### Basic list access lemmas -/

theorem getD_range_map {α : Type} (f : Nat → α) {n i : Nat} (h : i < n) (d : α) :
    ((List.range n).map f).getD i d = f i := by
  simp [List.getD_eq_getElem?_getD, List.getElem?_map, List.getElem?_range, h]

theorem getD_range'_map {α : Type} (f : Nat → α) {s n i : Nat} (h : i < n) (d : α) :
    ((List.range' s n).map f).getD i d = f (s + i) := by
  simp [List.getD_eq_getElem?_getD, List.getElem?_map, List.getElem?_range', h]

theorem getD_set {α : Type} (l : List α) (i j : Nat) (x d : α) (hi : i < l.length) :
    (l.set i x).getD j d = if j = i then x else l.getD j d := by
  rcases eq_or_ne j i with h | h
  · subst h
    simp [List.getD_eq_getElem?_getD, List.getElem?_set, hi]
  · simp [List.getD_eq_getElem?_getD, List.getElem?_set, Ne.symm h, h]

theorem getLastD_eq_getD {α : Type} (l : List α) (d : α) :
    l.getLastD d = l.getD (l.length - 1) d := by
  induction l with
  | nil => rfl
  | cons a t ih =>
    cases t with
    | nil => rfl
    | cons b t2 => simpa [List.getLastD] using ih

theorem foldl_add_range (f : Nat → ℝ) :
    ∀ (n : Nat) (x : ℝ),
      (List.range n).foldl (fun acc k => acc + f k) x = x + ∑ k ∈ Finset.range n, f k
  | 0, x => by simp
  | n + 1, x => by
    rw [List.range_succ, List.foldl_append, foldl_add_range f n x, Finset.sum_range_succ]
    simp [add_assoc]

/-! ### Shape lemmas for the matrix operations -/

@[simp] theorem ofFn_rows (r c : Nat) (f : Nat → Nat → ℝ) : (Matrix.ofFn r c f).rows = r := rfl

@[simp] theorem ofFn_cols (r c : Nat) (f : Nat → Nat → ℝ) : (Matrix.ofFn r c f).cols = c := rfl

@[simp] theorem mkFill_rows (r c : Nat) (v : ℝ) : (Matrix.mkFill r c v).rows = r := rfl

@[simp] theorem mkFill_cols (r c : Nat) (v : ℝ) : (Matrix.mkFill r c v).cols = c := rfl

@[simp] theorem addP_rows (a b : Matrix) : (a.addP b).rows = a.rows := rfl

@[simp] theorem addP_cols (a b : Matrix) : (a.addP b).cols = a.cols := rfl

@[simp] theorem subP_rows (a b : Matrix) : (a.subP b).rows = a.rows := rfl

@[simp] theorem subP_cols (a b : Matrix) : (a.subP b).cols = a.cols := rfl

@[simp] theorem mulP_rows (a b : Matrix) : (a.mulP b).rows = a.rows := rfl

@[simp] theorem mulP_cols (a b : Matrix) : (a.mulP b).cols = b.cols := rfl

@[simp] theorem smul_rows (a : Matrix) (s : ℝ) : (a.smul s).rows = a.rows := rfl

@[simp] theorem smul_cols (a : Matrix) (s : ℝ) : (a.smul s).cols = a.cols := rfl

@[simp] theorem transpose_rows (a : Matrix) : a.transpose.rows = a.cols := rfl

@[simp] theorem transpose_cols (a : Matrix) : a.transpose.cols = a.rows := rfl

@[simp] theorem sigmoid_rows (a : Matrix) : a.sigmoid.rows = a.rows := rfl

@[simp] theorem sigmoid_cols (a : Matrix) : a.sigmoid.cols = a.cols := rfl

@[simp] theorem square_rows (a : Matrix) : a.square.rows = a.rows := rfl

@[simp] theorem square_cols (a : Matrix) : a.square.cols = a.cols := rfl

@[simp] theorem randomize_rows (a : Matrix) (lo hi : ℝ) (rnd : Nat → Nat → ℝ) :
    (a.randomize lo hi rnd).rows = a.rows := rfl

@[simp] theorem randomize_cols (a : Matrix) (lo hi : ℝ) (rnd : Nat → Nat → ℝ) :
    (a.randomize lo hi rnd).cols = a.cols := rfl

@[simp] theorem hadP_rows (e d : Matrix) : (hadP e d).rows = e.rows := rfl

@[simp] theorem hadP_cols (e d : Matrix) : (hadP e d).cols = e.cols := rfl

@[simp] theorem derivOf_rows (a : Matrix) : (derivOf a).rows = a.rows := rfl

@[simp] theorem derivOf_cols (a : Matrix) : (derivOf a).cols = a.cols := rfl

/-! ### Cell evaluation -/

theorem entry_ofFn (r c : Nat) (f : Nat → Nat → ℝ) {i j : Nat} (hi : i < r) (hj : j < c) :
    (Matrix.ofFn r c f).entry i j = f i j := by
  show (((List.range r).map (fun i => (List.range c).map (fun j => f i j))).getD i []).getD j 0
      = f i j
  rw [getD_range_map _ hi, getD_range_map _ hj]

theorem entry_mkFill (r c : Nat) (v : ℝ) {i j : Nat} (hi : i < r) (hj : j < c) :
    (Matrix.mkFill r c v).entry i j = v := entry_ofFn r c _ hi hj

theorem dotP_eq_sum (a b : Matrix) (i j : Nat) :
    a.dotP b i j = ∑ k ∈ Finset.range a.cols, a.entry i k * b.entry k j := by
  unfold Matrix.dotP
  rw [foldl_add_range (fun k => a.entry i k * b.entry k j) a.cols 0, zero_add]

theorem sum_eq_sum (a : Matrix) :
    a.sum = ∑ i ∈ Finset.range a.rows, ∑ j ∈ Finset.range a.cols, a.entry i j := by
  unfold Matrix.sum
  induction a.rows with
  | zero => simp
  | succ n ih =>
    rw [List.range_succ, List.foldl_append, ih, Finset.sum_range_succ,
      List.foldl_cons, List.foldl_nil,
      foldl_add_range (fun j => a.entry n j) a.cols]

/-! ### Success and failure of the checked operations -/

theorem add_ok {a b : Matrix} (h1 : a.rows = b.rows) (h2 : a.cols = b.cols) :
    a.add b = .ok (a.addP b) := by
  simp [Matrix.add, h1, h2]

theorem add_err {a b : Matrix} (h : a.rows ≠ b.rows ∨ a.cols ≠ b.cols) :
    a.add b = .error .dimMismatch := by
  unfold Matrix.add
  rw [if_pos h]

theorem sub_ok {a b : Matrix} (h1 : a.rows = b.rows) (h2 : a.cols = b.cols) :
    a.sub b = .ok (a.subP b) := by
  simp [Matrix.sub, h1, h2]

theorem sub_err {a b : Matrix} (h : a.rows ≠ b.rows ∨ a.cols ≠ b.cols) :
    a.sub b = .error .dimMismatch := by
  unfold Matrix.sub
  rw [if_pos h]

theorem mul_ok {a b : Matrix} (h : a.cols = b.rows) :
    a.mul b = .ok (a.mulP b) := by
  simp [Matrix.mul, h]

theorem mul_err {a b : Matrix} (h : a.cols ≠ b.rows) :
    a.mul b = .error .dimMismatch := by
  unfold Matrix.mul
  rw [if_pos h]

theorem hadChecked_ok {e d : Matrix} (h1 : e.rows ≤ d.rows) (h2 : e.cols ≤ d.cols) :
    hadChecked e d = .ok (hadP e d) := by
  unfold hadChecked
  rw [if_pos (Or.inr (Or.inr ⟨h1, h2⟩))]

theorem vecAt_ok {l : List Matrix} {i : Nat} (h : i < l.length) :
    vecAt l i = .ok (l.getD i dfltM) := by
  simp [vecAt, h]

theorem vecAt_err {l : List Matrix} {i : Nat} (h : ¬ i < l.length) :
    vecAt l i = .error .ubOutOfBounds := by
  simp [vecAt, h]

end NNSpec

namespace NNSpec

/-! ### Monadic reduction helper -/

@[simp] theorem ok_bind {α β : Type} (a : α) (f : α → Except MErr β) :
    (Except.ok a : Except MErr α) >>= f = f a := rfl

/-! ### Shape of a freshly constructed network -/

theorem mkNetwork_shapeOK (ls : List Nat) (lr : ℝ) (rW rB : Nat → Nat → Nat → ℝ) :
    ShapeOK ls (mkNetwork ls lr rW rB) := by
  refine ⟨rfl, by simp [mkNetwork], by simp [mkNetwork], ?_⟩
  intro i hi
  simp only [mkNetwork]
  rw [getD_range_map _ hi, getD_range_map _ hi]
  simp

/-! ### Shapes along the activation sequence -/

theorem aSeq_shape {ls : List Nat} {nn : NeuralNetwork} {input : Matrix}
    (hS : ShapeOK ls nn) (hr : input.rows = ls.getD 0 0) (hc : input.cols = 1) :
    ∀ i, i ≤ nn.weights.length →
      (aSeq nn input i).rows = ls.getD i 0 ∧ (aSeq nn input i).cols = 1 := by
  intro i
  induction i with
  | zero => exact fun _ => ⟨hr, hc⟩
  | succ i ih =>
    intro h
    have hn : nn.weights.length = ls.length - 1 := hS.2.1
    obtain ⟨hrw, hcw, hrb, hcb⟩ := hS.2.2.2 i (by omega)
    obtain ⟨ar, ac⟩ := ih (by omega)
    rw [aSeq]
    split <;> constructor <;>
      simp only [sigmoid_rows, sigmoid_cols, addP_rows, addP_cols, mulP_rows, mulP_cols] <;>
      first
      | exact hrw
      | exact ac

end NNSpec

namespace NNSpec

/-! ### Forward pass: success path -/

theorem forwardAux_ok {ls : List Nat} {nn : NeuralNetwork} {input : Matrix}
    (hS : ShapeOK ls nn) (hr : input.rows = ls.getD 0 0) (hc : input.cols = 1) :
    ∀ (fuel i : Nat), i + fuel = nn.weights.length →
      forwardAux nn i fuel (aSeq nn input i) = .ok (aSeq nn input nn.weights.length) := by
  intro fuel
  induction fuel with
  | zero =>
    intro i h
    rw [forwardAux, show i = nn.weights.length by omega]
  | succ fuel ih =>
    intro i h
    have hiw : i < nn.weights.length := by omega
    have hib : i < nn.biases.length := by
      rw [hS.2.2.1, ← hS.2.1]; omega
    obtain ⟨hrw, hcw, hrb, hcb⟩ := hS.2.2.2 i (by rw [← hS.2.1]; omega)
    obtain ⟨ar, ac⟩ := aSeq_shape hS hr hc i (le_of_lt hiw)
    rw [forwardAux, vecAt_ok hiw, ok_bind, vecAt_ok hib, ok_bind,
      mul_ok (by rw [hcw, ar]), ok_bind,
      add_ok (by rw [mulP_rows, hrw, hrb]) (by rw [mulP_cols, ac, hcb]), ok_bind]
    rw [show (if i < nn.weights.length - 1
          then (((nn.weights.getD i dfltM).mulP (aSeq nn input i)).addP
            (nn.biases.getD i dfltM)).sigmoid
          else ((nn.weights.getD i dfltM).mulP (aSeq nn input i)).addP
            (nn.biases.getD i dfltM)) = aSeq nn input (i + 1) from by rw [aSeq]]
    exact ih (i + 1) (by omega)

end NNSpec

namespace NNSpec

@[simp] theorem err_bind {α β : Type} (e : MErr) (f : α → Except MErr β) :
    (Except.error e : Except MErr α) >>= f = .error e := rfl

/-! ### Forward pass: shape-mismatch path -/

theorem forward_mismatch {ls : List Nat} {nn : NeuralNetwork} {input : Matrix}
    (h2 : 2 ≤ ls.length) (hS : ShapeOK ls nn)
    (hbad : ¬(input.rows = ls.getD 0 0 ∧ input.cols = 1)) :
    nn.forward input = .error .dimMismatch := by
  have hn : 1 ≤ nn.weights.length := by rw [hS.2.1]; omega
  obtain ⟨fuel, hf⟩ : ∃ k, nn.weights.length = k + 1 := ⟨nn.weights.length - 1, by omega⟩
  have h0b : 0 < nn.biases.length := by rw [hS.2.2.1]; omega
  obtain ⟨hrw, hcw, hrb, hcb⟩ := hS.2.2.2 0 (by omega)
  unfold NeuralNetwork.forward
  rw [hf, forwardAux, vecAt_ok (by omega), ok_bind, vecAt_ok h0b, ok_bind]
  by_cases hr : input.rows = ls.getD 0 0
  · have hc : input.cols ≠ 1 := fun hc => hbad ⟨hr, hc⟩
    rw [mul_ok (by rw [hcw, hr]), ok_bind,
      add_err (Or.inr (by rw [mulP_cols, hcb]; exact hc))]
    rfl
  · rw [mul_err (by rw [hcw]; exact fun hh => hr hh.symm)]
    rfl

/-- C2.  For every network satisfying the constructor-established shape
invariant over a layer-size sequence of length ≥ 2: an input of shape
`(layer_sizes[0] × 1)` makes `forward` return a matrix of shape
`(layer_sizes.back() × 1)`, and every input of any other shape makes
`forward` raise `DimensionMismatch` and produce no result. -/
theorem c2_forward_shape (ls : List Nat) (nn : NeuralNetwork) (input : Matrix)
    (h2 : 2 ≤ ls.length) (hS : ShapeOK ls nn) :
    ((input.rows = ls.getD 0 0 ∧ input.cols = 1) →
      ∃ out nn2, nn.forward input = .ok (out, nn2) ∧
        out.rows = ls.getD (ls.length - 1) 0 ∧ out.cols = 1) ∧
    (¬(input.rows = ls.getD 0 0 ∧ input.cols = 1) →
      nn.forward input = .error .dimMismatch) := by
  constructor
  · rintro ⟨hr, hc⟩
    refine ⟨aSeq nn input nn.weights.length, nn, ?_, ?_, ?_⟩
    · have hfw : forwardAux nn 0 nn.weights.length input
          = .ok (aSeq nn input nn.weights.length) :=
        forwardAux_ok hS hr hc nn.weights.length 0 (by omega)
      unfold NeuralNetwork.forward
      rw [hfw]
      rfl
    · have hsh := (aSeq_shape hS hr hc nn.weights.length le_rfl).1
      rw [hsh, hS.2.1]
    · exact (aSeq_shape hS hr hc nn.weights.length le_rfl).2
  · exact forward_mismatch h2 hS

theorem c2_forward_shape_witness :
    ∃ out nn2, cNet.forward cIn = .ok (out, nn2) ∧ out.rows = 1 ∧ out.cols = 1 :=
  (c2_forward_shape [1, 1, 1] cNet cIn (by norm_num)
    (mkNetwork_shapeOK [1, 1, 1] 1 rHalf rBC)).1 ⟨rfl, rfl⟩

/-- C7.  On every shape-valid input, `forward` succeeds and returns the
network state exactly as it was: the produced pair carries the original
network — all weight matrices, all bias matrices, the layer-size
sequence and the learning rate unchanged. -/
theorem c7_forward_no_side_effects (ls : List Nat) (nn : NeuralNetwork) (input : Matrix)
    (h2 : 2 ≤ ls.length) (hS : ShapeOK ls nn)
    (hr : input.rows = ls.getD 0 0) (hc : input.cols = 1) :
    ∃ out, nn.forward input = .ok (out, nn) := by
  refine ⟨aSeq nn input nn.weights.length, ?_⟩
  have hfw : forwardAux nn 0 nn.weights.length input
      = .ok (aSeq nn input nn.weights.length) :=
    forwardAux_ok hS hr hc nn.weights.length 0 (by omega)
  unfold NeuralNetwork.forward
  rw [hfw]
  rfl

theorem c7_forward_no_side_effects_witness :
    ∃ out, cNet.forward cIn = .ok (out, cNet) :=
  c7_forward_no_side_effects [1, 1, 1] cNet cIn (by norm_num)
    (mkNetwork_shapeOK [1, 1, 1] 1 rHalf rBC) rfl rfl

end NNSpec

namespace NNSpec

/-- C8.  Applying `sigmoid` to any matrix leaves in every in-bounds cell
exactly `1 / (1 + e^{-x})` of the previous value `x`, and this value lies
strictly inside the open interval `(0, 1)`. -/
theorem c8_sigmoid_range (a : Matrix) (i j : Nat) (hi : i < a.rows) (hj : j < a.cols) :
    a.sigmoid.entry i j = 1 / (1 + Real.exp (-(a.entry i j))) ∧
    0 < a.sigmoid.entry i j ∧ a.sigmoid.entry i j < 1 := by
  have he : a.sigmoid.entry i j = 1 / (1 + Real.exp (-(a.entry i j))) := by
    unfold Matrix.sigmoid
    rw [entry_ofFn _ _ _ hi hj]
    rfl
  refine ⟨he, ?_, ?_⟩
  · rw [he]; positivity
  · rw [he, div_lt_one (by positivity)]
    have hx := Real.exp_pos (-(a.entry i j))
    linarith

theorem c8_sigmoid_range_witness :
    cIn.sigmoid.entry 0 0 = 1 / (1 + Real.exp (-(cIn.entry 0 0))) ∧
    0 < cIn.sigmoid.entry 0 0 ∧ cIn.sigmoid.entry 0 0 < 1 :=
  c8_sigmoid_range cIn 0 0 (by decide) (by decide)

/-- C5.  `add` and `sub` on differently shaped operands, and `mul` with
`cols ≠ rhs.rows`, raise `DimensionMismatch` and produce no result.  The
operators are `const` value-semantics functions in the source and pure
functions of their operands here, so the operands themselves are left
untouched by construction. -/
theorem c5_mismatch_raises (a b : Matrix) :
    ((a.rows ≠ b.rows ∨ a.cols ≠ b.cols) →
      a.add b = .error .dimMismatch ∧ a.sub b = .error .dimMismatch) ∧
    (a.cols ≠ b.rows → a.mul b = .error .dimMismatch) :=
  ⟨fun h => ⟨add_err h, sub_err h⟩, fun h => mul_err h⟩

theorem c5_mismatch_raises_witness :
    (cIn.add ⟨2, 2, [[0, 0], [0, 0]]⟩ = .error .dimMismatch ∧
      cIn.sub ⟨2, 2, [[0, 0], [0, 0]]⟩ = .error .dimMismatch) ∧
    cIn.mul ⟨2, 2, [[0, 0], [0, 0]]⟩ = .error .dimMismatch :=
  ⟨(c5_mismatch_raises cIn ⟨2, 2, [[0, 0], [0, 0]]⟩).1 (Or.inl (by decide)),
    (c5_mismatch_raises cIn ⟨2, 2, [[0, 0], [0, 0]]⟩).2 (by decide)⟩

/-- C6.  For compatible shapes, `mul` succeeds with an
`(a.rows × b.cols)` matrix whose cell `(i, j)` is the dot product
`Σ_k a(i,k) · b(k,j)` accumulated by the triple-nested loop. -/
theorem c6_mul_product (a b : Matrix) (h : a.cols = b.rows) :
    ∃ m, a.mul b = .ok m ∧ m.rows = a.rows ∧ m.cols = b.cols ∧
      ∀ i j, i < a.rows → j < b.cols →
        m.entry i j = ∑ k ∈ Finset.range a.cols, a.entry i k * b.entry k j := by
  refine ⟨a.mulP b, mul_ok h, rfl, rfl, ?_⟩
  intro i j hi hj
  unfold Matrix.mulP
  rw [entry_ofFn _ _ _ hi hj, dotP_eq_sum]

theorem c6_mul_product_witness :
    ∃ m, cIn.mul cIn = .ok m ∧ m.rows = 1 ∧ m.cols = 1 ∧
      ∀ i j, i < 1 → j < 1 →
        m.entry i j = ∑ k ∈ Finset.range 1, cIn.entry i k * cIn.entry k j :=
  c6_mul_product cIn cIn rfl

/-- C10.  On equal shapes `mse` always succeeds and returns the summed
squared difference divided by the cell count `rows * cols` — with no
guard, so a zero-cell shape divides by the real number `0`.  The summed
squared difference is the double sum of `(predicted - target)²` over all
cells. -/
theorem c10_mse_unguarded (p t : Matrix) (hr : p.rows = t.rows) (hc : p.cols = t.cols) :
    NeuralNetwork.mse p t = .ok (((p.subP t).square).sum / ((p.rows * p.cols : Nat) : ℝ)) ∧
    ((p.subP t).square).sum
      = ∑ i ∈ Finset.range p.rows, ∑ j ∈ Finset.range p.cols,
          (p.entry i j - t.entry i j) * (p.entry i j - t.entry i j) ∧
    (p.rows * p.cols = 0 → ((p.rows * p.cols : Nat) : ℝ) = 0) := by
  refine ⟨?_, ?_, fun h => by rw [h]; simp⟩
  · unfold NeuralNetwork.mse
    rw [sub_ok hr hc, ok_bind]
    rfl
  · rw [sum_eq_sum]
    refine Finset.sum_congr rfl fun i hi => Finset.sum_congr rfl fun j hj => ?_
    rw [Finset.mem_range] at hi hj
    show ((p.subP t).square).entry i j = _
    unfold Matrix.square
    rw [entry_ofFn _ _ _ (show i < (p.subP t).rows from hi) (show j < (p.subP t).cols from hj)]
    unfold Matrix.subP
    rw [entry_ofFn _ _ _ hi hj]

theorem c10_mse_unguarded_witness :
    NeuralNetwork.mse cIn cTg
        = .ok (((cIn.subP cTg).square).sum / ((cIn.rows * cIn.cols : Nat) : ℝ)) ∧
    ((cIn.subP cTg).square).sum
      = ∑ i ∈ Finset.range 1, ∑ j ∈ Finset.range 1,
          (cIn.entry i j - cTg.entry i j) * (cIn.entry i j - cTg.entry i j) ∧
    (cIn.rows * cIn.cols = 0 → ((cIn.rows * cIn.cols : Nat) : ℝ) = 0) :=
  c10_mse_unguarded cIn cTg rfl rfl

end NNSpec

namespace NNSpec

/-! ### Shapes and unfolding equations of the backward error sequence -/

@[simp] theorem updW_rows (nn : NeuralNetwork) (input target : Matrix) (i : Nat) :
    (updW nn input target i).rows = (nn.weights.getD i dfltM).rows := rfl

@[simp] theorem updW_cols (nn : NeuralNetwork) (input target : Matrix) (i : Nat) :
    (updW nn input target i).cols = (nn.weights.getD i dfltM).cols := rfl

@[simp] theorem updB_rows (nn : NeuralNetwork) (input target : Matrix) (i : Nat) :
    (updB nn input target i).rows = (nn.biases.getD i dfltM).rows := rfl

@[simp] theorem updB_cols (nn : NeuralNetwork) (input target : Matrix) (i : Nat) :
    (updB nn input target i).cols = (nn.biases.getD i dfltM).cols := rfl

theorem eAux_shape {ls : List Nat} {nn : NeuralNetwork} {input target : Matrix}
    (hS : ShapeOK ls nn) (hr : input.rows = ls.getD 0 0) (hc : input.cols = 1)
    (htc : target.cols = 1) (hn : 1 ≤ nn.weights.length) :
    ∀ d, d ≤ nn.weights.length - 1 →
      (eAux nn input target d).rows = ls.getD (nn.weights.length - d) 0 ∧
      (eAux nn input target d).cols = 1 := by
  intro d
  induction d with
  | zero =>
    intro _
    refine ⟨?_, ?_⟩
    · show ((aSeq nn input nn.weights.length).subP target).rows = _
      rw [subP_rows, (aSeq_shape hS hr hc _ le_rfl).1, Nat.sub_zero]
    · show ((aSeq nn input nn.weights.length).subP target).cols = 1
      rw [subP_cols, (aSeq_shape hS hr hc _ le_rfl).2]
  | succ d ih =>
    intro hd
    obtain ⟨er, ec⟩ := ih (by omega)
    have hidx : nn.weights.length - 1 - (d + 1) + 1 = nn.weights.length - (d + 1) := by omega
    have hlt : nn.weights.length - 1 - (d + 1) + 1 < ls.length - 1 := by
      rw [← hS.2.1]; omega
    obtain ⟨hrw, hcw, hrb, hcb⟩ := hS.2.2.2 _ hlt
    constructor
    · show (hadP _ _).rows = _
      rw [hadP_rows, mulP_rows, transpose_rows, subP_cols, hcw, hidx]
    · show (hadP _ _).cols = 1
      rw [hadP_cols, mulP_cols, ec]

theorem eAt_shape {ls : List Nat} {nn : NeuralNetwork} {input target : Matrix}
    (hS : ShapeOK ls nn) (hr : input.rows = ls.getD 0 0) (hc : input.cols = 1)
    (htc : target.cols = 1) (hn : 1 ≤ nn.weights.length)
    {i : Nat} (hi : i ≤ nn.weights.length - 1) :
    (eAt nn input target i).rows = ls.getD (i + 1) 0 ∧
    (eAt nn input target i).cols = 1 := by
  have h := eAux_shape hS hr hc htc hn (nn.weights.length - 1 - i) (by omega)
  have hidx : nn.weights.length - (nn.weights.length - 1 - i) = i + 1 := by omega
  rw [hidx] at h
  exact h

theorem eAt_top (nn : NeuralNetwork) (input target : Matrix) :
    eAt nn input target (nn.weights.length - 1)
      = (aSeq nn input nn.weights.length).subP target := by
  unfold eAt
  rw [Nat.sub_self, eAux]

theorem eAt_step (nn : NeuralNetwork) (input target : Matrix)
    {i : Nat} (hi : i + 1 ≤ nn.weights.length - 1) :
    eAt nn input target i
      = hadP ((updW nn input target (i + 1)).transpose.mulP (eAt nn input target (i + 1)))
          (derivOf (aSeq nn input (i + 1))) := by
  have hd : nn.weights.length - 1 - i = (nn.weights.length - 1 - (i + 1)) + 1 := by omega
  have hidx : nn.weights.length - 1 - (nn.weights.length - 1 - (i + 1) + 1) = i := by omega
  simp only [updW, eAt, eAux]
  rw [hd]
  simp only [eAux]
  simp only [hidx]

end NNSpec

namespace NNSpec

/-! ### Cached forward pass of train -/

theorem trainFwdAux_ok {ls : List Nat} {nn : NeuralNetwork} {input : Matrix}
    (hS : ShapeOK ls nn) (hr : input.rows = ls.getD 0 0) (hc : input.cols = 1) :
    ∀ (fuel i : Nat) (acts zs : List Matrix), i + fuel = nn.weights.length →
      ∃ zs2, trainFwdAux nn i fuel (aSeq nn input i) acts zs
        = .ok (acts ++ (List.range' (i + 1) fuel).map (aSeq nn input), zs2,
            aSeq nn input nn.weights.length) := by
  intro fuel
  induction fuel with
  | zero =>
    intro i acts zs h
    refine ⟨zs, ?_⟩
    rw [trainFwdAux, show i = nn.weights.length from by omega]
    simp
  | succ fuel ih =>
    intro i acts zs h
    have hiw : i < nn.weights.length := by omega
    have hib : i < nn.biases.length := by
      rw [hS.2.2.1, ← hS.2.1]; omega
    obtain ⟨hrw, hcw, hrb, hcb⟩ := hS.2.2.2 i (by rw [← hS.2.1]; omega)
    obtain ⟨ar, ac⟩ := aSeq_shape hS hr hc i (le_of_lt hiw)
    obtain ⟨zs2, hrec⟩ := ih (i + 1)
      (acts ++ [aSeq nn input (i + 1)])
      (zs ++ [((nn.weights.getD i dfltM).mulP (aSeq nn input i)).addP (nn.biases.getD i dfltM)])
      (by omega)
    refine ⟨zs2, ?_⟩
    rw [trainFwdAux, vecAt_ok hiw, ok_bind, vecAt_ok hib, ok_bind,
      mul_ok (by rw [hcw, ar]), ok_bind,
      add_ok (by rw [mulP_rows, hrw, hrb]) (by rw [mulP_cols, ac, hcb]), ok_bind]
    rw [show (if i < nn.weights.length - 1
          then (((nn.weights.getD i dfltM).mulP (aSeq nn input i)).addP
            (nn.biases.getD i dfltM)).sigmoid
          else ((nn.weights.getD i dfltM).mulP (aSeq nn input i)).addP
            (nn.biases.getD i dfltM)) = aSeq nn input (i + 1) from by rw [aSeq]]
    rw [hrec]
    rw [List.range'_succ]
    simp

end NNSpec

namespace NNSpec

/-! ### Backward pass of train -/

theorem trainBackAux_ok {ls : List Nat} {nn : NeuralNetwork} {input target : Matrix}
    (hS : ShapeOK ls nn) (hr : input.rows = ls.getD 0 0) (hc : input.cols = 1)
    (htc : target.cols = 1)
    (A : List Matrix) (hAlen : A.length = nn.weights.length + 1)
    (hAget : ∀ j, j ≤ nn.weights.length → A.getD j dfltM = aSeq nn input j) :
    ∀ (c : Nat) (ws bs : List Matrix), c ≤ nn.weights.length - 1 →
      ws.length = nn.weights.length → bs.length = nn.weights.length →
      (∀ j, j < nn.weights.length →
        ws.getD j dfltM
          = if j < c then nn.weights.getD j dfltM else updW nn input target j) →
      (∀ j, j < nn.weights.length →
        bs.getD j dfltM
          = if j < c then nn.biases.getD j dfltM else updB nn input target j) →
      ∃ ws2 bs2,
        trainBackAux nn.learning_rate A c ws bs (eAt nn input target c) = .ok (ws2, bs2) ∧
        ws2.length = nn.weights.length ∧ bs2.length = nn.weights.length ∧
        (∀ j, j < nn.weights.length →
          ws2.getD j dfltM = updW nn input target j ∧
          bs2.getD j dfltM = updB nn input target j) := by
  intro c
  induction c with
  | zero =>
    intro ws bs _ hwl hbl hwg hbg
    refine ⟨ws, bs, ?_, hwl, hbl, fun j hj => ⟨by simpa using hwg j hj, by simpa using hbg j hj⟩⟩
    rw [trainBackAux]
  | succ i ih =>
    intro ws bs hcle hwl hbl hwg hbg
    have hn1 : 1 ≤ nn.weights.length := by omega
    have hi1n : i + 1 < nn.weights.length := by omega
    have hin : i < nn.weights.length := by omega
    obtain ⟨hrw0, hcw0, hrb0, hcb0⟩ := hS.2.2.2 i (by rw [← hS.2.1]; omega)
    obtain ⟨hrw1, hcw1, hrb1, hcb1⟩ := hS.2.2.2 (i + 1) (by rw [← hS.2.1]; omega)
    obtain ⟨ar0, ac0⟩ := aSeq_shape hS hr hc i (by omega)
    obtain ⟨ar1, ac1⟩ := aSeq_shape hS hr hc (i + 1) (by omega)
    obtain ⟨er0, ec0⟩ := eAt_shape hS hr hc htc hn1 (show i ≤ nn.weights.length - 1 by omega)
    obtain ⟨er1, ec1⟩ := eAt_shape hS hr hc htc hn1 hcle
    have h1 : vecAt ws (i + 1) = .ok (updW nn input target (i + 1)) := by
      rw [vecAt_ok (show i + 1 < ws.length by omega), hwg (i + 1) hi1n]
      simp
    have h2 : ((updW nn input target (i + 1)).transpose).mul (eAt nn input target (i + 1))
        = .ok (((updW nn input target (i + 1)).transpose).mulP (eAt nn input target (i + 1))) :=
      mul_ok (by rw [transpose_cols, updW_rows, hrw1, er1])
    have h3 : vecAt A (i + 1) = .ok (aSeq nn input (i + 1)) := by
      rw [vecAt_ok (show i + 1 < A.length by omega), hAget (i + 1) (by omega)]
    have h4 : (Matrix.mkFill (aSeq nn input (i + 1)).square.rows
          (aSeq nn input (i + 1)).square.cols 1).sub ((aSeq nn input (i + 1)).square)
        = .ok (derivOf (aSeq nn input (i + 1))) :=
      sub_ok rfl rfl
    have h5 : hadChecked
          (((updW nn input target (i + 1)).transpose).mulP (eAt nn input target (i + 1)))
          (derivOf (aSeq nn input (i + 1)))
        = .ok (eAt nn input target i) := by
      rw [hadChecked_ok
        (by rw [mulP_rows, transpose_rows, updW_cols, hcw1, derivOf_rows, ar1])
        (by rw [mulP_cols, ec1, derivOf_cols, ac1])]
      exact congrArg _ (eAt_step nn input target hcle).symm
    have h6 : vecAt A i = .ok (aSeq nn input i) := by
      rw [vecAt_ok (show i < A.length by omega), hAget i (by omega)]
    have h7 : (eAt nn input target i).mul ((aSeq nn input i).transpose)
        = .ok ((eAt nn input target i).mulP ((aSeq nn input i).transpose)) :=
      mul_ok (by rw [ec0, transpose_rows, ac0])
    have h8 : vecAt ws i = .ok (nn.weights.getD i dfltM) := by
      rw [vecAt_ok (show i < ws.length by omega), hwg i hin]
      simp
    have h9 : (nn.weights.getD i dfltM).sub
          (((eAt nn input target i).mulP ((aSeq nn input i).transpose)).smul nn.learning_rate)
        = .ok (updW nn input target i) := by
      rw [sub_ok (by rw [smul_rows, mulP_rows, hrw0, er0])
        (by rw [smul_cols, mulP_cols, transpose_cols, hcw0, ar0])]
      rfl
    have h10 : vecAt bs i = .ok (nn.biases.getD i dfltM) := by
      rw [vecAt_ok (show i < bs.length by omega), hbg i hin]
      simp
    have h11 : (nn.biases.getD i dfltM).sub ((eAt nn input target i).smul nn.learning_rate)
        = .ok (updB nn input target i) := by
      rw [sub_ok (by rw [smul_rows, hrb0, er0]) (by rw [smul_cols, hcb0, ec0])]
      rfl
    obtain ⟨ws2, bs2, hback, hwl2, hbl2, hfin⟩ := ih
      (ws.set i (updW nn input target i)) (bs.set i (updB nn input target i))
      (by omega)
      (by rw [List.length_set]; exact hwl)
      (by rw [List.length_set]; exact hbl)
      (by
        intro j hj
        rw [getD_set ws i j _ dfltM (by omega)]
        by_cases hji : j = i
        · subst hji
          simp
        · rw [if_neg hji, hwg j hj]
          by_cases hlt2 : j < i
          · rw [if_pos (show j < i + 1 by omega), if_pos hlt2]
          · rw [if_neg (show ¬ j < i + 1 by omega), if_neg hlt2])
      (by
        intro j hj
        rw [getD_set bs i j _ dfltM (by omega)]
        by_cases hji : j = i
        · subst hji
          simp
        · rw [if_neg hji, hbg j hj]
          by_cases hlt2 : j < i
          · rw [if_pos (show j < i + 1 by omega), if_pos hlt2]
          · rw [if_neg (show ¬ j < i + 1 by omega), if_neg hlt2])
    refine ⟨ws2, bs2, ?_, hwl2, hbl2, hfin⟩
    rw [trainBackAux]
    simp only [h1, ok_bind, h2, h3, h4, h5, h6, h7, h8, h9, h10, h11]
    exact hback

end NNSpec

namespace NNSpec

theorem outputLayerIdx_eq {n : Nat} (h1 : 1 ≤ n) (h2 : n ≤ 2 ^ 64) :
    outputLayerIdx n = n - 1 := by
  have hp : (2 : Nat) ^ 64 = 18446744073709551616 := by norm_num
  unfold outputLayerIdx
  rw [hp] at h2 ⊢
  omega

/-- Full characterisation of one `train` call on a shape-valid example:
it succeeds, leaves `layers` and the learning rate alone, and replaces
every `weights[j]` / `biases[j]` by the gradient-descent updates built
from the backward error sequence `eAt` (which propagates through the
already-updated weights, exactly as the source does). -/
theorem train_master {ls : List Nat} {nn : NeuralNetwork} {input target : Matrix}
    (h2 : 2 ≤ ls.length) (hsz : ls.length ≤ 2 ^ 64) (hS : ShapeOK ls nn)
    (hr : input.rows = ls.getD 0 0) (hc : input.cols = 1)
    (htr : target.rows = ls.getD (ls.length - 1) 0) (htc : target.cols = 1) :
    ∃ nn2, nn.train input target = .ok nn2 ∧
      nn2.layers = nn.layers ∧ nn2.learning_rate = nn.learning_rate ∧
      nn2.weights.length = nn.weights.length ∧ nn2.biases.length = nn.weights.length ∧
      ∀ j, j < nn.weights.length →
        nn2.weights.getD j dfltM = updW nn input target j ∧
        nn2.biases.getD j dfltM = updB nn input target j := by
  have hn : nn.weights.length = ls.length - 1 := hS.2.1
  have hn1 : 1 ≤ nn.weights.length := by omega
  have hbl : nn.biases.length = nn.weights.length := by rw [hS.2.2.1, hn]
  obtain ⟨zs2, hfwd⟩ := trainFwdAux_ok hS hr hc nn.weights.length 0 [input] [] (by omega)
  have hfwd2 : trainFwdAux nn 0 nn.weights.length input [input] []
      = .ok (input :: (List.range' 1 nn.weights.length).map (aSeq nn input), zs2,
          aSeq nn input nn.weights.length) := hfwd
  have hAlen : (input :: (List.range' 1 nn.weights.length).map (aSeq nn input)).length
      = nn.weights.length + 1 := by
    simp [List.length_range']
  have hAget : ∀ j, j ≤ nn.weights.length →
      (input :: (List.range' 1 nn.weights.length).map (aSeq nn input)).getD j dfltM
        = aSeq nn input j := by
    intro j hj
    cases j with
    | zero => rfl
    | succ j2 =>
      show ((List.range' 1 nn.weights.length).map (aSeq nn input)).getD j2 dfltM = _
      rw [getD_range'_map _ (show j2 < nn.weights.length by omega), Nat.add_comm 1 j2]
  have hlast : (input :: (List.range' 1 nn.weights.length).map (aSeq nn input)).getLastD dfltM
      = aSeq nn input nn.weights.length := by
    rw [getLastD_eq_getD, hAlen, Nat.add_sub_cancel]
    exact hAget nn.weights.length le_rfl
  have hsub : (aSeq nn input nn.weights.length).sub target
      = .ok (eAt nn input target (nn.weights.length - 1)) := by
    rw [sub_ok (by rw [(aSeq_shape hS hr hc _ le_rfl).1, htr, hn])
      (by rw [(aSeq_shape hS hr hc _ le_rfl).2, htc]), eAt_top]
  have hoL : outputLayerIdx nn.weights.length = nn.weights.length - 1 :=
    outputLayerIdx_eq hn1 (by omega)
  obtain ⟨hrwL, hcwL, hrbL, hcbL⟩ := hS.2.2.2 (nn.weights.length - 1) (by omega)
  obtain ⟨arL, acL⟩ := aSeq_shape hS hr hc (nn.weights.length - 1) (by omega)
  obtain ⟨erL, ecL⟩ := eAt_shape hS hr hc htc hn1 (le_refl (nn.weights.length - 1))
  have hw1 : vecAt nn.weights (nn.weights.length - 1)
      = .ok (nn.weights.getD (nn.weights.length - 1) dfltM) := vecAt_ok (by omega)
  have hA1 : vecAt (input :: (List.range' 1 nn.weights.length).map (aSeq nn input))
        (nn.weights.length - 1)
      = .ok (aSeq nn input (nn.weights.length - 1)) := by
    rw [vecAt_ok (show nn.weights.length - 1
      < (input :: (List.range' 1 nn.weights.length).map (aSeq nn input)).length by
        rw [hAlen]; omega)]
    rw [hAget (nn.weights.length - 1) (by omega)]
  have hm : (eAt nn input target (nn.weights.length - 1)).mul
        ((aSeq nn input (nn.weights.length - 1)).transpose)
      = .ok ((eAt nn input target (nn.weights.length - 1)).mulP
          ((aSeq nn input (nn.weights.length - 1)).transpose)) :=
    mul_ok (by rw [ecL, transpose_rows, acL])
  have hsub2 : (nn.weights.getD (nn.weights.length - 1) dfltM).sub
        (((eAt nn input target (nn.weights.length - 1)).mulP
          ((aSeq nn input (nn.weights.length - 1)).transpose)).smul nn.learning_rate)
      = .ok (updW nn input target (nn.weights.length - 1)) := by
    rw [sub_ok (by rw [smul_rows, mulP_rows, hrwL, erL])
      (by rw [smul_cols, mulP_cols, transpose_cols, hcwL, arL])]
    rfl
  have hb1 : vecAt nn.biases (nn.weights.length - 1)
      = .ok (nn.biases.getD (nn.weights.length - 1) dfltM) := vecAt_ok (by omega)
  have hsub3 : (nn.biases.getD (nn.weights.length - 1) dfltM).sub
        ((eAt nn input target (nn.weights.length - 1)).smul nn.learning_rate)
      = .ok (updB nn input target (nn.weights.length - 1)) := by
    rw [sub_ok (by rw [smul_rows, hrbL, erL])
      (by rw [smul_cols, hcbL, ecL])]
    rfl
  obtain ⟨ws2, bs2, hback, hwl2, hbl2, hfin⟩ := trainBackAux_ok hS hr hc htc
    (input :: (List.range' 1 nn.weights.length).map (aSeq nn input)) hAlen hAget
    (nn.weights.length - 1)
    (nn.weights.set (nn.weights.length - 1) (updW nn input target (nn.weights.length - 1)))
    (nn.biases.set (nn.weights.length - 1) (updB nn input target (nn.weights.length - 1)))
    le_rfl
    (by rw [List.length_set])
    (by rw [List.length_set, hbl])
    (by
      intro j hj
      rw [getD_set nn.weights (nn.weights.length - 1) j _ dfltM (by omega)]
      by_cases hji : j = nn.weights.length - 1
      · subst hji
        simp
      · rw [if_neg hji, if_pos (by omega)])
    (by
      intro j hj
      rw [getD_set nn.biases (nn.weights.length - 1) j _ dfltM (by omega)]
      by_cases hji : j = nn.weights.length - 1
      · subst hji
        simp
      · rw [if_neg hji, if_pos (by omega)])
  refine ⟨⟨ws2, bs2, nn.layers, nn.learning_rate⟩, ?_, rfl, rfl, hwl2, hbl2, hfin⟩
  unfold NeuralNetwork.train
  simp only [hfwd2, ok_bind, hlast, hsub, hoL, hw1, hA1, hm, hsub2, hb1, hsub3, hback]

end NNSpec

namespace NNSpec

/-! ### Cellwise evaluation lemmas -/

theorem entry_addP (a b : Matrix) {i j : Nat} (hi : i < a.rows) (hj : j < a.cols) :
    (a.addP b).entry i j = a.entry i j + b.entry i j := by
  unfold Matrix.addP
  exact entry_ofFn _ _ _ hi hj

theorem entry_subP (a b : Matrix) {i j : Nat} (hi : i < a.rows) (hj : j < a.cols) :
    (a.subP b).entry i j = a.entry i j - b.entry i j := by
  unfold Matrix.subP
  exact entry_ofFn _ _ _ hi hj

theorem entry_mulP (a b : Matrix) {i j : Nat} (hi : i < a.rows) (hj : j < b.cols) :
    (a.mulP b).entry i j = a.dotP b i j := by
  unfold Matrix.mulP
  exact entry_ofFn _ _ _ hi hj

theorem entry_smul (a : Matrix) (s : ℝ) {i j : Nat} (hi : i < a.rows) (hj : j < a.cols) :
    (a.smul s).entry i j = a.entry i j * s := by
  unfold Matrix.smul
  exact entry_ofFn _ _ _ hi hj

theorem entry_transpose (a : Matrix) {i j : Nat} (hi : i < a.cols) (hj : j < a.rows) :
    a.transpose.entry i j = a.entry j i := by
  unfold Matrix.transpose
  exact entry_ofFn _ _ _ hi hj

theorem entry_sigmoid (a : Matrix) {i j : Nat} (hi : i < a.rows) (hj : j < a.cols) :
    a.sigmoid.entry i j = sigmoidFn (a.entry i j) := by
  unfold Matrix.sigmoid
  exact entry_ofFn _ _ _ hi hj

theorem entry_square (a : Matrix) {i j : Nat} (hi : i < a.rows) (hj : j < a.cols) :
    a.square.entry i j = a.entry i j * a.entry i j := by
  unfold Matrix.square
  exact entry_ofFn _ _ _ hi hj

theorem entry_hadP (e d : Matrix) {i j : Nat} (hi : i < e.rows) (hj : j < e.cols) :
    (hadP e d).entry i j = e.entry i j * d.entry i j := by
  unfold hadP
  exact entry_ofFn _ _ _ hi hj

theorem entry_randomize (a : Matrix) (lo hi : ℝ) (rnd : Nat → Nat → ℝ) {i j : Nat}
    (h1 : i < a.rows) (h2 : j < a.cols) :
    (a.randomize lo hi rnd).entry i j = lo + rnd i j * (hi - lo) := by
  unfold Matrix.randomize
  exact entry_ofFn _ _ _ h1 h2

theorem dotP_one {a : Matrix} (b : Matrix) (h : a.cols = 1) (i j : Nat) :
    a.dotP b i j = a.entry i 0 * b.entry 0 j := by
  unfold Matrix.dotP
  rw [h, foldl_add_range (fun k => a.entry i k * b.entry k j) 1 0, Finset.sum_range_one,
    zero_add]

/-- C3.  One shape-valid `train` call succeeds, and for every hidden
layer `i` (counting weight indices `0 ≤ i < L` with `L` the output
index): the backpropagated error `e_i` is the propagated
`weight_{i+1}ᵗ · e_{i+1}` rescaled elementwise by `1 - a_{i+1}²` built
from that hidden layer's cached post-activation (`activations[i+1]`, the
claim's `a_i`) — not the textbook `a·(1-a)` — and the final stacks hold
`weight_i - lr · (e_i · activations[i]ᵗ)` and `bias_i - lr · e_i`. -/
theorem c3_hidden_layer_updates (ls : List Nat) (nn : NeuralNetwork) (input target : Matrix)
    (h2 : 2 ≤ ls.length) (hsz : ls.length ≤ 2 ^ 64) (hS : ShapeOK ls nn)
    (hr : input.rows = ls.getD 0 0) (hc : input.cols = 1)
    (htr : target.rows = ls.getD (ls.length - 1) 0) (htc : target.cols = 1) :
    ∃ nn2, nn.train input target = .ok nn2 ∧
      ∀ i, i < nn.weights.length - 1 →
        eAt nn input target i
          = hadP ((updW nn input target (i + 1)).transpose.mulP (eAt nn input target (i + 1)))
              ((Matrix.mkFill (aSeq nn input (i + 1)).rows (aSeq nn input (i + 1)).cols 1).subP
                (aSeq nn input (i + 1)).square) ∧
        nn2.weights.getD i dfltM
          = (nn.weights.getD i dfltM).subP
              (((eAt nn input target i).mulP (aSeq nn input i).transpose).smul
                nn.learning_rate) ∧
        nn2.biases.getD i dfltM
          = (nn.biases.getD i dfltM).subP ((eAt nn input target i).smul nn.learning_rate) := by
  obtain ⟨nn2, htrain, _, _, _, _, hfin⟩ := train_master h2 hsz hS hr hc htr htc
  refine ⟨nn2, htrain, fun i hi => ⟨?_, ?_, ?_⟩⟩
  · exact eAt_step nn input target (by omega)
  · exact (hfin i (by omega)).1
  · exact (hfin i (by omega)).2

theorem c3_hidden_layer_updates_witness :
    ∃ nn2, cNet.train cIn cTg = .ok nn2 ∧
      ∀ i, i < cNet.weights.length - 1 →
        eAt cNet cIn cTg i
          = hadP ((updW cNet cIn cTg (i + 1)).transpose.mulP (eAt cNet cIn cTg (i + 1)))
              ((Matrix.mkFill (aSeq cNet cIn (i + 1)).rows (aSeq cNet cIn (i + 1)).cols 1).subP
                (aSeq cNet cIn (i + 1)).square) ∧
        nn2.weights.getD i dfltM
          = (cNet.weights.getD i dfltM).subP
              (((eAt cNet cIn cTg i).mulP (aSeq cNet cIn i).transpose).smul
                cNet.learning_rate) ∧
        nn2.biases.getD i dfltM
          = (cNet.biases.getD i dfltM).subP ((eAt cNet cIn cTg i).smul cNet.learning_rate) :=
  c3_hidden_layer_updates [1, 1, 1] cNet cIn cTg (by norm_num) (by norm_num)
    (mkNetwork_shapeOK [1, 1, 1] 1 rHalf rBC) rfl rfl rfl rfl

/-- C1 (amended).  Updates do proceed strictly from the output layer
toward the input layer, but each backpropagated error
`e_i = weight_{i+1}ᵗ · e_{i+1}` is computed from the value of
`weight_{i+1}` **already updated earlier in the same call**
(`weight_{i+1} - lr · (e_{i+1} · a_{i+1}ᵗ)`, the value the preceding
backward step wrote into the stack), not from the start-of-call value. -/
theorem c1_amended_backprop_through_updated_weights
    (ls : List Nat) (nn : NeuralNetwork) (input target : Matrix)
    (h2 : 2 ≤ ls.length) (hsz : ls.length ≤ 2 ^ 64) (hS : ShapeOK ls nn)
    (hr : input.rows = ls.getD 0 0) (hc : input.cols = 1)
    (htr : target.rows = ls.getD (ls.length - 1) 0) (htc : target.cols = 1) :
    ∃ nn2, nn.train input target = .ok nn2 ∧
      ∀ i, i < nn.weights.length - 1 →
        nn2.weights.getD (i + 1) dfltM = updW nn input target (i + 1) ∧
        updW nn input target (i + 1)
          = (nn.weights.getD (i + 1) dfltM).subP
              (((eAt nn input target (i + 1)).mulP (aSeq nn input (i + 1)).transpose).smul
                nn.learning_rate) ∧
        eAt nn input target i
          = hadP ((updW nn input target (i + 1)).transpose.mulP (eAt nn input target (i + 1)))
              (derivOf (aSeq nn input (i + 1))) := by
  obtain ⟨nn2, htrain, _, _, _, _, hfin⟩ := train_master h2 hsz hS hr hc htr htc
  refine ⟨nn2, htrain, fun i hi => ⟨(hfin (i + 1) (by omega)).1, rfl, ?_⟩⟩
  exact eAt_step nn input target (by omega)

theorem c1_amended_backprop_through_updated_weights_witness :
    ∃ nn2, cNet.train cIn cTg = .ok nn2 ∧
      ∀ i, i < cNet.weights.length - 1 →
        nn2.weights.getD (i + 1) dfltM = updW cNet cIn cTg (i + 1) ∧
        updW cNet cIn cTg (i + 1)
          = (cNet.weights.getD (i + 1) dfltM).subP
              (((eAt cNet cIn cTg (i + 1)).mulP (aSeq cNet cIn (i + 1)).transpose).smul
                cNet.learning_rate) ∧
        eAt cNet cIn cTg i
          = hadP ((updW cNet cIn cTg (i + 1)).transpose.mulP (eAt cNet cIn cTg (i + 1)))
              (derivOf (aSeq cNet cIn (i + 1))) :=
  c1_amended_backprop_through_updated_weights [1, 1, 1] cNet cIn cTg (by norm_num)
    (by norm_num) (mkNetwork_shapeOK [1, 1, 1] 1 rHalf rBC) rfl rfl rfl rfl

end NNSpec

namespace NNSpec

/-! ### Concrete evaluation of one train step on the `[1,1,1]` network -/

theorem v_w0 : (cNet.weights.getD 0 dfltM).entry 0 0 = 0 := by
  rw [show cNet.weights.getD 0 dfltM
      = (Matrix.mkFill 1 1 0).randomize (-1) 1 (rHalf 0) from rfl,
    entry_randomize _ _ _ _ Nat.one_pos Nat.one_pos]
  norm_num [rHalf]

theorem v_w1 : (cNet.weights.getD 1 dfltM).entry 0 0 = 0 := by
  rw [show cNet.weights.getD 1 dfltM
      = (Matrix.mkFill 1 1 0).randomize (-1) 1 (rHalf 1) from rfl,
    entry_randomize _ _ _ _ Nat.one_pos Nat.one_pos]
  norm_num [rHalf]

theorem v_b0 : (cNet.biases.getD 0 dfltM).entry 0 0 = 0 := by
  rw [show cNet.biases.getD 0 dfltM
      = (Matrix.mkFill 1 1 0).randomize (-1) 1 (rBC 0) from rfl,
    entry_randomize _ _ _ _ Nat.one_pos Nat.one_pos]
  norm_num [rBC]

theorem v_b1 : (cNet.biases.getD 1 dfltM).entry 0 0 = 1 := by
  rw [show cNet.biases.getD 1 dfltM
      = (Matrix.mkFill 1 1 0).randomize (-1) 1 (rBC 1) from rfl,
    entry_randomize _ _ _ _ Nat.one_pos Nat.one_pos]
  norm_num [rBC]

theorem v_a1 : (aSeq cNet cIn 1).entry 0 0 = 1 / 2 := by
  rw [show aSeq cNet cIn 1
      = (((cNet.weights.getD 0 dfltM).mulP (aSeq cNet cIn 0)).addP
          (cNet.biases.getD 0 dfltM)).sigmoid from rfl,
    entry_sigmoid _ Nat.one_pos Nat.one_pos,
    entry_addP _ _ Nat.one_pos Nat.one_pos,
    entry_mulP _ _ Nat.one_pos Nat.one_pos,
    dotP_one _ rfl, v_w0, v_b0, zero_mul, add_zero]
  unfold sigmoidFn
  rw [neg_zero, Real.exp_zero]
  norm_num

theorem v_a2 : (aSeq cNet cIn 2).entry 0 0 = 1 := by
  rw [show aSeq cNet cIn 2
      = ((cNet.weights.getD 1 dfltM).mulP (aSeq cNet cIn 1)).addP
          (cNet.biases.getD 1 dfltM) from rfl,
    entry_addP _ _ Nat.one_pos Nat.one_pos,
    entry_mulP _ _ Nat.one_pos Nat.one_pos,
    dotP_one _ rfl, v_w1, v_b1, zero_mul, zero_add]

theorem v_e1 : (eAt cNet cIn cTg 1).entry 0 0 = 1 := by
  rw [show eAt cNet cIn cTg 1 = (aSeq cNet cIn 2).subP cTg from rfl,
    entry_subP _ _ Nat.one_pos Nat.one_pos, v_a2,
    show cTg.entry 0 0 = 0 from rfl, sub_zero]

theorem v_w1upd : (updW cNet cIn cTg 1).entry 0 0 = -(1 / 2) := by
  rw [show updW cNet cIn cTg 1
      = (cNet.weights.getD 1 dfltM).subP
          (((eAt cNet cIn cTg 1).mulP (aSeq cNet cIn 1).transpose).smul
            cNet.learning_rate) from rfl,
    entry_subP _ _ Nat.one_pos Nat.one_pos, v_w1,
    entry_smul _ _ Nat.one_pos Nat.one_pos,
    entry_mulP _ _ Nat.one_pos Nat.one_pos,
    dotP_one _ rfl, v_e1,
    entry_transpose _ Nat.one_pos Nat.one_pos, v_a1,
    show cNet.learning_rate = 1 from rfl]
  norm_num

theorem v_e0 : (eAt cNet cIn cTg 0).entry 0 0 = -(3 / 8) := by
  rw [eAt_step cNet cIn cTg le_rfl,
    entry_hadP _ _ Nat.one_pos Nat.one_pos,
    entry_mulP _ _ Nat.one_pos Nat.one_pos,
    dotP_one _ rfl,
    entry_transpose _ Nat.one_pos Nat.one_pos,
    v_w1upd, v_e1,
    show derivOf (aSeq cNet cIn 1)
      = (Matrix.mkFill (aSeq cNet cIn 1).rows (aSeq cNet cIn 1).cols 1).subP
          (aSeq cNet cIn 1).square from rfl,
    entry_subP _ _ Nat.one_pos Nat.one_pos,
    entry_mkFill (aSeq cNet cIn 1).rows (aSeq cNet cIn 1).cols 1 Nat.one_pos Nat.one_pos,
    entry_square _ Nat.one_pos Nat.one_pos, v_a1]
  norm_num

/-- C1 (counterexample).  On the concrete `[1, 1, 1]` network with both
weights `0`, biases `0` and `1`, learning rate `1`, zero input and zero
target, the executed `train` leaves `3/8` in `biases[0]`, whereas the
claim's recurrence — the error backpropagated through the **original**
`weights[1]` — would leave `0` there.  So the backpropagated error is
not computed from the start-of-call value of `weights[1]`. -/
theorem c1_counterexample :
    (cNet.train cIn cTg).map (fun nn2 => (nn2.biases.getD 0 dfltM).entry 0 0)
      = .ok (3 / 8 : ℝ) ∧
    ((cNet.biases.getD 0 dfltM).subP
        ((eAtOrig cNet cIn cTg 0).smul cNet.learning_rate)).entry 0 0 = 0 ∧
    (3 / 8 : ℝ) ≠ 0 := by
  refine ⟨?_, ?_, by norm_num⟩
  · obtain ⟨nn2, htrain, _, _, _, _, hfin⟩ := @train_master [1, 1, 1] cNet cIn cTg
      (by norm_num) (by norm_num) (mkNetwork_shapeOK [1, 1, 1] 1 rHalf rBC) rfl rfl rfl rfl
    rw [htrain]
    show Except.ok ((nn2.biases.getD 0 dfltM).entry 0 0) = Except.ok (3 / 8 : ℝ)
    rw [(hfin 0 (by decide)).2,
      show updB cNet cIn cTg 0
        = (cNet.biases.getD 0 dfltM).subP
            ((eAt cNet cIn cTg 0).smul cNet.learning_rate) from rfl,
      entry_subP _ _ Nat.one_pos Nat.one_pos, v_b0,
      entry_smul _ _ Nat.one_pos Nat.one_pos, v_e0,
      show cNet.learning_rate = 1 from rfl]
    norm_num
  · have vo_e0 : (eAtOrig cNet cIn cTg 0).entry 0 0 = 0 := by
      rw [show eAtOrig cNet cIn cTg 0
          = hadP ((cNet.weights.getD 1 dfltM).transpose.mulP (eAtOrig cNet cIn cTg 1))
              (derivOf (aSeq cNet cIn 1)) from rfl,
        entry_hadP _ _ Nat.one_pos Nat.one_pos,
        entry_mulP _ _ Nat.one_pos Nat.one_pos,
        dotP_one _ rfl,
        entry_transpose _ Nat.one_pos Nat.one_pos, v_w1, zero_mul, zero_mul]
    rw [entry_subP _ _ Nat.one_pos Nat.one_pos, v_b0,
      entry_smul _ _ Nat.one_pos Nat.one_pos, vo_e0, zero_mul, sub_zero]

end NNSpec

namespace NNSpec

/-- C4.  Every network reachable from construction over a layer-size
sequence `ls` of length ≥ 2 by `forward` calls and shape-valid `train`
calls keeps the structural invariant: `ls.length - 1` weights and
biases, `weights[i]` of shape `(ls[i+1] × ls[i])` and `biases[i]` of
shape `(ls[i+1] × 1)`.  The bound `ls.length ≤ 2^64` reflects that a
`std::vector<size_t>` cannot exceed `SIZE_MAX` elements. -/
theorem c4_shape_invariant (ls : List Nat) (nn : NeuralNetwork)
    (h2 : 2 ≤ ls.length) (hsz : ls.length ≤ 2 ^ 64) (hR : Reachable ls nn) :
    nn.weights.length = ls.length - 1 ∧ nn.biases.length = ls.length - 1 ∧
    ∀ i, i < ls.length - 1 →
      (nn.weights.getD i dfltM).rows = ls.getD (i + 1) 0 ∧
      (nn.weights.getD i dfltM).cols = ls.getD i 0 ∧
      (nn.biases.getD i dfltM).rows = ls.getD (i + 1) 0 ∧
      (nn.biases.getD i dfltM).cols = 1 := by
  have hmain : ShapeOK ls nn := by
    induction hR with
    | init lr rW rB => exact mkNetwork_shapeOK ls lr rW rB
    | fwd nn0 input out nn2 hre hfw ih =>
      have heq : nn2 = nn0 := by
        unfold NeuralNetwork.forward at hfw
        cases hfa : forwardAux nn0 0 nn0.weights.length input with
        | error e =>
          rw [hfa] at hfw
          exact absurd hfw (by simp [Except.map])
        | ok a =>
          rw [hfa] at hfw
          simp [Except.map] at hfw
          exact hfw.2.symm
      rw [heq]
      exact ih
    | trn nn0 input target nn2 hre hir hic htr2 htc2 htrn ih =>
      obtain ⟨nn3, htrain, hl, hlr, hwl, hbl, hfin⟩ := train_master h2 hsz ih hir hic htr2 htc2
      rw [htrain] at htrn
      injection htrn with heq
      subst heq
      have hwn : nn0.weights.length = ls.length - 1 := ih.2.1
      refine ⟨by rw [hl, ih.1], by rw [hwl, hwn], by rw [hbl, hwn], ?_⟩
      intro i hi
      obtain ⟨hfw2, hfb2⟩ := hfin i (by omega)
      obtain ⟨h1, h2b, h3, h4⟩ := ih.2.2.2 i hi
      rw [hfw2, hfb2]
      exact ⟨by rw [updW_rows, h1], by rw [updW_cols, h2b],
        by rw [updB_rows, h3], by rw [updB_cols, h4]⟩
  exact ⟨hmain.2.1, hmain.2.2.1, hmain.2.2.2⟩

theorem c4_shape_invariant_witness :
    cNet.weights.length = 2 ∧ cNet.biases.length = 2 ∧
    ∀ i, i < 2 →
      (cNet.weights.getD i dfltM).rows = [1, 1, 1].getD (i + 1) 0 ∧
      (cNet.weights.getD i dfltM).cols = [1, 1, 1].getD i 0 ∧
      (cNet.biases.getD i dfltM).rows = [1, 1, 1].getD (i + 1) 0 ∧
      (cNet.biases.getD i dfltM).cols = 1 :=
  c4_shape_invariant [1, 1, 1] cNet (by norm_num) (by norm_num)
    (Reachable.init 1 rHalf rBC)

/-- C9 (counterexample).  Not every `train` call on a 1-layer network
reaches the underflowed weight access: when the input and target shapes
differ, the output-error subtraction `activations.back() - target`
(executed before the output-layer index is even formed) already raises
the defined `DimensionMismatch` error. -/
theorem c9_counterexample :
    (mkNetwork [1] 1 rHalf rHalf).train cIn ⟨2, 1, [[0], [0]]⟩ = .error .dimMismatch ∧
    MErr.dimMismatch ≠ MErr.ubOutOfBounds := by
  constructor
  · unfold NeuralNetwork.train
    rw [show (mkNetwork [1] 1 rHalf rHalf).weights.length = 0 from rfl, trainFwdAux, ok_bind]
    simp only []
    rw [show ([cIn] : List Matrix).getLastD dfltM = cIn from rfl,
      sub_err (Or.inl (by decide)), err_bind]
  · decide

/-- C9 (amended).  On a network built from a length-1 `layer_sizes`, the
weight and bias stacks are empty; a `train` call whose input and target
have equal shape gets past the output-error subtraction, computes the
output-layer index `weights.size() - 1` which wraps to `2^64 - 1`, and
the following `weights[output_layer]` access is out of bounds — the run
ends in undefined behaviour, not in a defined `DimensionMismatch` or
`IndexOutOfRange` error. -/
theorem c9_empty_network_underflow (k : Nat) (lr : ℝ) (rW rB : Nat → Nat → Nat → ℝ)
    (input target : Matrix)
    (hrr : input.rows = target.rows) (hcc : input.cols = target.cols) :
    (mkNetwork [k] lr rW rB).weights = [] ∧
    (mkNetwork [k] lr rW rB).biases = [] ∧
    outputLayerIdx (mkNetwork [k] lr rW rB).weights.length = 2 ^ 64 - 1 ∧
    (mkNetwork [k] lr rW rB).train input target = .error .ubOutOfBounds := by
  have hw : (mkNetwork [k] lr rW rB).weights = [] := by
    unfold mkNetwork
    simp
  have hb : (mkNetwork [k] lr rW rB).biases = [] := by
    unfold mkNetwork
    simp
  refine ⟨hw, hb, ?_, ?_⟩
  · rw [hw]
    unfold outputLayerIdx
    norm_num
  · unfold NeuralNetwork.train
    rw [hw, show ([] : List Matrix).length = 0 from rfl, trainFwdAux, ok_bind]
    simp only []
    rw [show ([input] : List Matrix).getLastD dfltM = input from rfl,
      sub_ok hrr hcc, ok_bind, vecAt_err (Nat.not_lt_zero _), err_bind]

theorem c9_empty_network_underflow_witness :
    (mkNetwork [1] 1 rHalf rHalf).weights = [] ∧
    (mkNetwork [1] 1 rHalf rHalf).biases = [] ∧
    outputLayerIdx (mkNetwork [1] 1 rHalf rHalf).weights.length = 2 ^ 64 - 1 ∧
    (mkNetwork [1] 1 rHalf rHalf).train cIn cTg = .error .ubOutOfBounds :=
  c9_empty_network_underflow 1 1 rHalf rHalf cIn cTg rfl rfl

end NNSpec
